import Mathlib

/-!
Verification development for the tinyMMO UDP game server (src/server.c).

The server keeps a fixed array of `NETWORK_CLIENTS` client slots, keyed by
the client's socket address.  Unconnected slots are entirely zero-filled;
the array is kept sorted by `qsort`/`bsearch` on the raw `memcmp` order of
the addresses.  A fixed-rate tick loop dispatches every connected client,
and a non-blocking ingress loop drains inbound datagrams.

Modelling conventions:
* A `struct sockaddr_in` is 16 bytes compared with `memcmp`; lexicographic
  byte order on fixed-size arrays is exactly numeric order of the value
  read as a big-endian number, so an address is modelled as a `Nat`.
  The all-zero address is `0`.  Every address delivered by `recvfrom` has
  `sin_family = AF_INET ≠ 0`, hence is modelled as a nonzero `Nat`.
* Machine integers are modelled as `Nat` (or `Int` for the signed `music`
  field).  `send_tick` is a `uint32_t` whose overflow is observable, so its
  increment is taken modulo `2 ^ 32`.  The `uint64_t` global tick and the
  comparisons on `recv_tick` cannot overflow on any relevant trace, so they
  stay plain `Nat`.
* `qsort` with `compare_clients` is modelled as an insertion sort with the
  same comparator; under the registry invariant all duplicate keys are
  identical zero-filled records, so the order of equal keys is irrelevant.
* `bsearch` over the sorted array is modelled as the index of the first
  slot whose address equals the needle (under the invariant there is at
  most one such slot for a nonzero needle).
* The game-logic hooks `on_tick`, `on_client`, `on_connect`,
  `on_disconnect` are empty functions in the source and are therefore
  modelled as no-ops.
-/

set_option maxRecDepth 100000

namespace TinyMMO

/-- TICK_RATE: 20 simulation ticks per second. -/
def TICK_RATE : Nat := 20

/-- NETWORK_CLIENTS: maximum amount of clients supported. -/
def NETWORK_CLIENTS : Nat := 1024

/-- NETWORK_TIMEOUT: kick clients after 10 seconds of silence. -/
def NETWORK_TIMEOUT : Nat := TICK_RATE * 10

/-- VIDEO_COLS: tile columns. -/
def VIDEO_COLS : Nat := 16

/-- VIDEO_ROWS: tile rows. -/
def VIDEO_ROWS : Nat := 16

/-- read_uint32: read a 32-bit big-endian integer from a byte buffer,
`(data[0] << 24) | (data[1] << 16) | (data[2] << 8) | data[3]`. -/
def read_uint32 (data : List Nat) : Nat :=
  ((data.getD 0 0) <<< 24) ||| ((data.getD 1 0) <<< 16) ||| ((data.getD 2 0) <<< 8) |||
    data.getD 3 0

/-- write_uint32: write a 32-bit big-endian integer,
`data[0] = (x >> 24) & 255; ...; data[3] = x & 255`. -/
def write_uint32 (x : Nat) : List Nat :=
  [(x >>> 24) &&& 255, (x >>> 16) &&& 255, (x >>> 8) &&& 255, x &&& 255]

/-- client_t: one registry slot.  Fields are listed in the order of the C
struct; the nested `input`, `output` and `net` sub-structs are flattened.
`video` is the row-major byte buffer `video[VIDEO_ROWS][VIDEO_COLS]`. -/
structure Client where
  connected : Bool
  down : Nat
  pressed : Nat
  video : List Nat
  audio : Nat
  music : Int
  addr : Nat
  last_tick : Nat
  send_tick : Nat
  recv_tick : Nat
deriving DecidableEq

/-- The all-zero client record: the content of every unconnected slot
(`*client = (client_t){0}` / the zero-initialized global state). -/
def zeroClient : Client :=
  ⟨false, 0, 0, List.replicate (VIDEO_ROWS * VIDEO_COLS) 0, 0, 0, 0, 0, 0, 0⟩

/-- The server state: global tick counter, the client array and the
`state.net.sorted` flag.  The UDP socket handle is not modelled. -/
structure ServerState where
  tick : Nat
  clients : List Client
  sorted : Bool
deriving DecidableEq

/-- The zero-initialized server state (`state = (struct state_t){ .running = true }`). -/
def initState : ServerState :=
  ⟨0, List.replicate NETWORK_CLIENTS zeroClient, false⟩

/-- Insert one client into a list sorted by address (helper of `sortClients`). -/
def insertSorted (c : Client) : List Client → List Client
  | [] => [c]
  | d :: ds => if c.addr ≤ d.addr then c :: d :: ds else d :: insertSorted c ds

/-- Model of `qsort(state.net.clients, NETWORK_CLIENTS, sizeof(client_t),
compare_clients)`: sort the slots by the memcmp order of their address.
Insertion sort is used; under the registry invariant all equal keys are
identical zero records, so any comparison sort yields the same array. -/
def sortClients : List Client → List Client
  | [] => []
  | c :: cs => insertSorted c (sortClients cs)

/-- Model of `bsearch(&needle, state.net.clients, ...)` on the sorted
array: index of the first slot whose address equals the needle (`none`
models a NULL result). -/
def bsearch (addr : Nat) : List Client → Option Nat
  | [] => none
  | c :: cs => if c.addr = addr then some 0 else (bsearch addr cs).map (· + 1)

/-- A freshly created client record:
`(client_t){ .connected = true, .net.addr = addr, .output.music = -1 }`. -/
def newClient (addr : Nat) : Client :=
  { zeroClient with connected := true, addr := addr, music := -1 }

/-- The client array as seen by `create_client` after its sorting
preamble: sorted unless the sorted flag already says so
(`if (!state.net.sorted) qsort(...)`). -/
def sortedView (st : ServerState) : List Client :=
  if st.sorted then st.clients else sortClients st.clients

/-- create_client: find or create a client for the given address.  Sorts
the array if needed, searches it, and otherwise claims slot 0 (the zero
address sorts to the start) unless that slot is connected (registry full,
NULL).  The result is the index of the returned client in the updated
array. -/
def create_client (st : ServerState) (addr : Nat) : Option Nat × ServerState :=
  let cs := sortedView st
  match bsearch addr cs with
  | some i => (some i, ⟨st.tick, cs, true⟩)
  | none =>
    match cs with
    | [] => (none, ⟨st.tick, cs, true⟩)
    | c0 :: rest =>
      if c0.connected then (none, ⟨st.tick, cs, true⟩)
      else (some 0, ⟨st.tick, newClient addr :: rest, false⟩)

/-- destroy_client: zero the slot and invalidate the sorted flag
(`*client = (client_t){0}; state.net.sorted = false;`). -/
def destroy_client (st : ServerState) (i : Nat) : ServerState :=
  ⟨st.tick, st.clients.set i zeroClient, false⟩

/-- handle_client: run the (empty) `on_client` hook, build and send the
update datagram `[seq:4][audio:4][music:1][video:256]` using the
pre-incremented `send_tick`, then reset `audio` and `pressed`.  Returns
the updated client and the transmitted datagram bytes. -/
def handle_client (c : Client) : Client × List Nat :=
  let send := (c.send_tick + 1) % 2 ^ 32
  let data := write_uint32 send ++ write_uint32 c.audio ++
    [(c.music % 256).toNat] ++ c.video
  ({ c with send_tick := send, audio := 0, pressed := 0 }, data)

/-- receive_packets, body for one datagram: drop it if shorter than 5
bytes, find or create the client (drop on NULL), drop it if its sequence
number is not strictly greater than `recv_tick`, otherwise record
`last_tick`, `recv_tick` and the edge-triggered input
(`pressed = (~down) & data[4]; down = data[4]`). -/
def receive_packet (st : ServerState) (addr : Nat) (data : List Nat) : ServerState :=
  if data.length < 5 then st
  else
    match create_client st addr with
    | (none, st₁) => st₁
    | (some i, st₁) =>
      let c := st₁.clients.getD i zeroClient
      let tick := read_uint32 data
      if tick ≤ c.recv_tick then st₁
      else
        ⟨st₁.tick,
         st₁.clients.set i
           { c with last_tick := st₁.tick, recv_tick := tick,
                    pressed := (255 ^^^ c.down) &&& data.getD 4 0,
                    down := data.getD 4 0 },
         st₁.sorted⟩

/-- receive_packets: drain all pending datagrams in arrival order.  Each
pending datagram is a pair of sender address and payload bytes. -/
def receive_packets (st : ServerState) (packets : List (Nat × List Nat)) : ServerState :=
  packets.foldl (fun s p => receive_packet s p.1 p.2) st

/-- One iteration of the run_tick client loop for one slot, at the already
incremented global tick: skip unconnected slots, destroy clients that
timed out (`state.tick - client->net.last_tick > NETWORK_TIMEOUT`), and
dispatch the rest.  Returns the new slot content and, if a datagram was
sent, its destination address and bytes. -/
def tick_client (tick : Nat) (c : Client) : Client × Option (Nat × List Nat) :=
  if !c.connected then (c, none)
  else if tick - c.last_tick > NETWORK_TIMEOUT then (zeroClient, none)
  else
    let r := handle_client c
    (r.1, some (c.addr, r.2))

/-- run_tick: increment the global tick, run the (empty) `on_tick` hook,
then walk all slots with `tick_client`.  The sorted flag is cleared iff
some client was destroyed (`destroy_client` sets it to false).  Returns
the new state and the datagrams sent this pass, with destinations. -/
def run_tick (st : ServerState) : ServerState × List (Nat × List Nat) :=
  let tick := st.tick + 1
  let destroyed :=
    st.clients.any (fun c => c.connected && decide (tick - c.last_tick > NETWORK_TIMEOUT))
  (⟨tick, st.clients.map (fun c => (tick_client tick c).1), st.sorted && !destroyed⟩,
   st.clients.filterMap (fun c => (tick_client tick c).2))

/-- Iterated server ticks with no interleaved ingress: the state after `n`
ticks together with every datagram transmitted during those `n` passes. -/
def run_ticks (st : ServerState) : Nat → ServerState × List (Nat × List Nat)
  | 0 => (st, [])
  | n + 1 =>
    let r := run_tick st
    let r' := run_ticks r.1 n
    (r'.1, r.2 ++ r'.2)

/-- Observation function: the session for an address, i.e. the first (and
under the registry invariant, only) connected slot holding that address. -/
def findClient (st : ServerState) (addr : Nat) : Option Client :=
  st.clients.find? (fun c => c.connected && c.addr == addr)

/-- Observation function: addresses of the connected slots. -/
def connectedAddrs (st : ServerState) : List Nat :=
  (st.clients.filter (fun c => c.connected)).map (fun c => c.addr)

/-- Observation function: number of connected slots. -/
def numConnected (st : ServerState) : Nat :=
  (st.clients.filter (fun c => c.connected)).length

/-- States reachable by the server loop from the zero-initialized state:
any interleaving of ticks and inbound datagrams.  `recvfrom` always
delivers an address with `sin_family = AF_INET` (modelled: nonzero) and
payload bytes below 256. -/
inductive Reachable : ServerState → Prop
  | init : Reachable initState
  | tick {st} : Reachable st → Reachable (run_tick st).1
  | recv {st} (addr : Nat) (data : List Nat) :
      Reachable st → addr ≠ 0 → (∀ b ∈ data, b < 256) →
      Reachable (receive_packet st addr data)

/-- Slots are pairwise address-distinct as soon as they are connected. -/
def Rdist (a b : Client) : Prop :=
  a.connected = true → b.connected = true → a.addr ≠ b.addr

/-- The memcmp order on slots used by `compare_clients`. -/
def Rle (a b : Client) : Prop := a.addr ≤ b.addr

/-- Registry invariant maintained by the server loop: the array has the
fixed capacity, unconnected slots are entirely zero-filled, connected
slots have nonzero pairwise-distinct addresses, the sorted flag is honest,
`last_tick` never runs ahead of the global tick, and the stored button
mask is one byte. -/
structure Inv (st : ServerState) : Prop where
  len : st.clients.length = NETWORK_CLIENTS
  zero_slot : ∀ c ∈ st.clients, c.connected = false → c = zeroClient
  conn_addr : ∀ c ∈ st.clients, c.connected = true → c.addr ≠ 0
  distinct : st.clients.Pairwise Rdist
  sorted_ok : st.sorted = true → st.clients.Pairwise Rle
  last_le : ∀ c ∈ st.clients, c.last_tick ≤ st.tick
  down_lt : ∀ c ∈ st.clients, c.down < 256

/-- Observation: there is no connected session for address `A`. -/
def NoA (st : ServerState) (A : Nat) : Prop :=
  ∀ x ∈ st.clients, x.connected = true → x.addr ≠ A

/-- Scenario driver: a burst of datagrams from distinct fresh addresses,
i.e. the fold of find-or-create over a list of addresses, starting from
the zero-initialized server. -/
def creates (L : List Nat) : ServerState :=
  L.foldl (fun s a => (create_client s a).2) initState

/-- Iterated per-tick dispatch of a single client that stays connected:
the client after `k` calls of `handle_client`. -/
def handle_iter (c : Client) : Nat → Client
  | 0 => c
  | k + 1 => (handle_client (handle_iter c k)).1

/-- The sequence number carried on the wire by the (k+1)-th datagram
transmitted to a client, decoded back from the datagram bytes. -/
def sentSeq (c : Client) (k : Nat) : Nat :=
  read_uint32 (handle_client (handle_iter c k)).2

/-- The same registry at a later global tick (used to put concrete states
far enough in the future to exercise the timeout path). -/
def bump (st : ServerState) (t : Nat) : ServerState := ⟨t, st.clients, st.sorted⟩

/-- Concrete state used by witnesses: one datagram `seq=1, buttons=3` from
address 7 received by the freshly initialized server. -/
def exampleState : ServerState := receive_packet initState 7 [0, 0, 0, 1, 3]

/-- The session record of address 7 inside `exampleState`. -/
def exampleClient7 : Client :=
  { connected := true, down := 3, pressed := 3,
    video := List.replicate (VIDEO_ROWS * VIDEO_COLS) 0,
    audio := 0, music := -1, addr := 7, last_tick := 0, send_tick := 0, recv_tick := 1 }

theorem insertSorted_perm (c : Client) (l : List Client) :
    (insertSorted c l).Perm (c :: l) := by
  induction l with
  | nil => simp [insertSorted]
  | cons d ds ih =>
    by_cases h : c.addr ≤ d.addr
    · simp [insertSorted, h]
    · simp only [insertSorted, if_neg h]
      exact (ih.cons d).trans (List.Perm.swap c d ds)

theorem sortClients_perm (l : List Client) : (sortClients l).Perm l := by
  induction l with
  | nil => simp [sortClients]
  | cons c cs ih =>
    exact (insertSorted_perm c (sortClients cs)).trans (ih.cons c)

theorem pairwise_insertSorted (c : Client) (l : List Client)
    (h : l.Pairwise Rle) : (insertSorted c l).Pairwise Rle := by
  induction l with
  | nil => simp [insertSorted, List.Pairwise]
  | cons d ds ih =>
    rcases h with - | ⟨hd, hds⟩
    by_cases hle : c.addr ≤ d.addr
    · simp only [insertSorted, if_pos hle]
      refine List.Pairwise.cons ?_ (List.Pairwise.cons hd hds)
      intro x hx
      rcases List.mem_cons.mp hx with rfl | hx
      · exact hle
      · exact le_trans hle (hd x hx)
    · simp only [insertSorted, if_neg hle]
      refine List.Pairwise.cons ?_ (ih hds)
      intro x hx
      have hx' := (insertSorted_perm c ds).mem_iff.mp hx
      rcases List.mem_cons.mp hx' with rfl | hx'
      · exact le_of_not_le hle
      · exact hd x hx'

theorem sortClients_pairwise (l : List Client) :
    (sortClients l).Pairwise Rle := by
  induction l with
  | nil => simp [sortClients, List.Pairwise]
  | cons c cs ih => exact pairwise_insertSorted c (sortClients cs) ih

theorem bsearch_eq_none_iff (a : Nat) (l : List Client) :
    bsearch a l = none ↔ ∀ c ∈ l, c.addr ≠ a := by
  induction l with
  | nil => simp [bsearch]
  | cons c cs ih =>
    by_cases h : c.addr = a
    · simp [bsearch, h]
    · simp [bsearch, h, ih]

theorem bsearch_some_spec (a : Nat) (l : List Client) (i : Nat)
    (h : bsearch a l = some i) :
    i < l.length ∧ (l.getD i zeroClient).addr = a ∧
      ∀ j, j < i → (l.getD j zeroClient).addr ≠ a := by
  induction l generalizing i with
  | nil => simp [bsearch] at h
  | cons c cs ih =>
    by_cases hc : c.addr = a
    · simp only [bsearch, if_pos hc] at h
      cases h
      exact ⟨by simp, by simpa using hc, by omega⟩
    · simp only [bsearch, if_neg hc, Option.map_eq_some'] at h
      obtain ⟨j, hj, rfl⟩ := h
      obtain ⟨h1, h2, h3⟩ := ih j hj
      refine ⟨by simpa using h1, by simpa using h2, ?_⟩
      intro k hk
      match k with
      | 0 => simpa using hc
      | k + 1 =>
        simpa using h3 k (by omega)

theorem find?_unique_of_mem {p : Client → Bool} {l : List Client} {a : Client}
    (huniq : ∀ x ∈ l, p x = true → x = a) (ha : a ∈ l) (hpa : p a = true) :
    l.find? p = some a := by
  induction l with
  | nil => simp at ha
  | cons c cs ih =>
    by_cases hc : p c = true
    · have : c = a := huniq c (by simp) hc
      subst this
      simp [List.find?, hc]
    · rw [List.find?_cons_of_neg _ hc]
      rcases List.mem_cons.mp ha with rfl | ha
      · exact absurd hpa hc
      · exact ih (fun x hx hpx => huniq x (by simp [hx]) hpx) ha

theorem pairwise_find?_unique {R : Client → Client → Prop} {p : Client → Bool}
    (hp : ∀ a b, p a = true → p b = true → ¬ R a b)
    {l : List Client} {c : Client}
    (hR : l.Pairwise R) (hfind : l.find? p = some c) :
    ∀ x ∈ l, p x = true → x = c := by
  induction l with
  | nil => simp at hfind
  | cons d ds ih =>
    rcases hR with - | ⟨hd, hds⟩
    by_cases hpd : p d = true
    · rw [List.find?_cons_of_pos _ hpd] at hfind
      cases hfind
      intro x hx hpx
      rcases List.mem_cons.mp hx with rfl | hx
      · rfl
      · exact absurd (hd x hx) (hp c x hpd hpx)
    · rw [List.find?_cons_of_neg _ hpd] at hfind
      intro x hx hpx
      rcases List.mem_cons.mp hx with rfl | hx
      · exact absurd hpx hpd
      · exact ih hds hfind x hx hpx

theorem find?_set_of_none {p : Client → Bool} (l : List Client) (i : Nat) (x : Client)
    (hx : p x = false)
    (hi : i < l.length → p (l.getD i zeroClient) = false) :
    (l.set i x).find? p = l.find? p := by
  induction l generalizing i with
  | nil => simp
  | cons c cs ih =>
    match i with
    | 0 =>
      have hc : p c = false := by simpa using hi (by simp)
      simp [List.find?_cons_of_neg, hx, hc]
    | i + 1 =>
      by_cases hc : p c = true
      · simp [List.find?_cons_of_pos, hc]
      · rw [List.set_cons_succ, List.find?_cons_of_neg _ hc, List.find?_cons_of_neg _ hc]
        exact ih i (fun h => by simpa using hi (by simpa using Nat.succ_lt_succ h))

theorem find?_set_match {p : Client → Bool} (l : List Client) (i : Nat) (x : Client)
    (hilen : i < l.length) (hx : p x = true)
    (hpre : ∀ j, j < i → p (l.getD j zeroClient) = false) :
    (l.set i x).find? p = some x := by
  induction l generalizing i with
  | nil => simp at hilen
  | cons c cs ih =>
    match i with
    | 0 => simp [List.find?_cons_of_pos, hx]
    | i + 1 =>
      have hc : p c = false := by simpa using hpre 0 (by omega)
      rw [List.set_cons_succ, List.find?_cons_of_neg _ (by simp [hc])]
      exact ih i (by simpa using hilen) (fun j hj => by simpa using hpre (j + 1) (by omega))

theorem pairwise_set_proj {β : Type} (f : Client → β) (R : β → β → Prop)
    (l : List Client) (i : Nat) (x : Client)
    (hl : l.Pairwise (fun a b => R (f a) (f b)))
    (hf : i < l.length → f x = f (l.getD i zeroClient)) :
    (l.set i x).Pairwise (fun a b => R (f a) (f b)) := by
  induction l generalizing i with
  | nil => simp
  | cons c cs ih =>
    rcases hl with - | ⟨hc, hcs⟩
    match i with
    | 0 =>
      have hfx : f x = f c := by simpa using hf (by simp)
      refine List.Pairwise.cons ?_ hcs
      intro y hy
      rw [hfx]
      exact hc y hy
    | i + 1 =>
      rw [List.set_cons_succ]
      by_cases hlen : i < cs.length
      · refine List.Pairwise.cons ?_
          (ih i hcs (fun h => by simpa using hf (by simpa using Nat.succ_lt_succ h)))
        intro y hy
        rcases List.mem_or_eq_of_mem_set hy with hy | rfl
        · exact hc y hy
        · have hfx : f y = f (cs.getD i zeroClient) := by
            simpa using hf (by simpa using Nat.succ_lt_succ hlen)
          rw [hfx, List.getD_eq_getElem cs zeroClient hlen]
          exact hc _ (List.getElem_mem hlen)
      · rw [List.set_eq_of_length_le (by omega)]
        exact List.Pairwise.cons hc hcs

theorem rdist_symm {a b : Client} (h : Rdist a b) : Rdist b a := by
  intro hb ha
  exact fun he => h ha hb he.symm

theorem inv_initState : Inv initState := by
  refine ⟨?_, ?_, ?_, ?_, ?_, ?_, ?_⟩
  · exact List.length_replicate NETWORK_CLIENTS zeroClient
  · intro c hc _
    exact (List.mem_replicate.mp hc).2
  · intro c hc hconn
    rw [(List.mem_replicate.mp hc).2] at hconn
    exact absurd hconn (by simp [zeroClient])
  · refine List.pairwise_replicate.mpr (Or.inr ?_)
    intro h
    exact absurd h (by simp [zeroClient])
  · intro h
    exact absurd h (by simp [initState])
  · intro c hc
    rw [(List.mem_replicate.mp hc).2]
    exact Nat.le_refl 0
  · intro c hc
    rw [(List.mem_replicate.mp hc).2]
    exact Nat.lt_of_sub_eq_succ rfl

theorem sortedView_perm (st : ServerState) : (sortedView st).Perm st.clients := by
  unfold sortedView
  by_cases h : st.sorted
  · simp [h]
  · simp [h, sortClients_perm]

theorem sortedView_pairwise (st : ServerState) (h : Inv st) :
    (sortedView st).Pairwise Rle := by
  unfold sortedView
  by_cases hs : st.sorted
  · simpa [hs] using h.sorted_ok (by simpa using hs)
  · simp [hs, sortClients_pairwise]

theorem inv_of_perm {tick : Nat} {cs : List Client} {flag : Bool} {st : ServerState}
    (h : Inv st) (hperm : cs.Perm st.clients) (htick : st.tick ≤ tick)
    (hflag : flag = true → cs.Pairwise Rle) :
    Inv ⟨tick, cs, flag⟩ := by
  refine ⟨?_, ?_, ?_, ?_, ?_, ?_, ?_⟩
  · rw [hperm.length_eq]
    exact h.len
  · intro c hc
    exact h.zero_slot c (hperm.mem_iff.mp hc)
  · intro c hc
    exact h.conn_addr c (hperm.mem_iff.mp hc)
  · exact (hperm.pairwise_iff (fun h => rdist_symm h)).mpr h.distinct
  · exact hflag
  · intro c hc
    exact le_trans (h.last_le c (hperm.mem_iff.mp hc)) htick
  · intro c hc
    exact h.down_lt c (hperm.mem_iff.mp hc)

theorem inv_sortedView (st : ServerState) (h : Inv st) :
    Inv ⟨st.tick, sortedView st, true⟩ :=
  inv_of_perm h (sortedView_perm st) le_rfl (fun _ => sortedView_pairwise st h)

theorem mem_connectedAddrs {st : ServerState} {c : Client}
    (hc : c ∈ st.clients) (hconn : c.connected = true) :
    c.addr ∈ connectedAddrs st := by
  unfold connectedAddrs
  exact List.mem_map_of_mem _ (List.mem_filter.mpr ⟨hc, by simp [hconn]⟩)

theorem exists_of_mem_connectedAddrs {st : ServerState} {A : Nat}
    (h : A ∈ connectedAddrs st) :
    ∃ c ∈ st.clients, c.connected = true ∧ c.addr = A := by
  unfold connectedAddrs at h
  obtain ⟨c, hc, rfl⟩ := List.mem_map.mp h
  have := List.mem_filter.mp hc
  exact ⟨c, this.1, by simpa using this.2, rfl⟩

theorem length_connectedAddrs (st : ServerState) :
    (connectedAddrs st).length = numConnected st := by
  unfold connectedAddrs numConnected
  exact List.length_map _ _

theorem pairwise_unique_mem {l : List Client} (hl : l.Pairwise Rdist)
    {c d : Client} (hc : c ∈ l) (hd : d ∈ l)
    (hcc : c.connected = true) (hdc : d.connected = true)
    (heq : c.addr = d.addr) : c = d := by
  induction l with
  | nil => simp at hc
  | cons x xs ih =>
    rcases hl with - | ⟨hx, hxs⟩
    rcases List.mem_cons.mp hc with hcx | hc
    · rcases List.mem_cons.mp hd with hdx | hd
      · rw [hcx, hdx]
      · rw [hcx] at heq hcc
        exact absurd heq (hx d hd hcc hdc)
    · rcases List.mem_cons.mp hd with hdx | hd
      · rw [hdx] at heq hdc
        exact absurd heq.symm (hx c hc hdc hcc)
      · exact ih hxs hc hd

theorem exists_unconnected_slot {st : ServerState} (h : Inv st)
    (hfree : numConnected st < NETWORK_CLIENTS) :
    ∃ c ∈ st.clients, c.connected = false := by
  unfold numConnected at hfree
  rw [← List.countP_eq_length_filter, ← h.len] at hfree
  by_contra hall
  push_neg at hall
  have : List.countP (fun c => c.connected) st.clients = st.clients.length := by
    refine List.countP_eq_length.mpr ?_
    intro a ha
    have := hall a ha
    simpa using eq_true_of_ne_false (by simpa using this)
  omega

theorem all_connected_of_full {st : ServerState} (h : Inv st)
    (hfull : numConnected st = NETWORK_CLIENTS) :
    ∀ c ∈ st.clients, c.connected = true := by
  unfold numConnected at hfull
  rw [← List.countP_eq_length_filter, ← h.len] at hfull
  exact fun c hc => by simpa using List.countP_eq_length.mp hfull c hc

theorem head_unconnected {cs : List Client}
    (hpair : cs.Pairwise Rle)
    (hzero : ∀ c ∈ cs, c.connected = false → c = zeroClient)
    (hconn : ∀ c ∈ cs, c.connected = true → c.addr ≠ 0)
    (hx : ∃ c ∈ cs, c.connected = false) :
    (cs.headD zeroClient).connected = false := by
  obtain ⟨x, hxmem, hxconn⟩ := hx
  match cs, hxmem with
  | h :: t, hxmem =>
    rcases hpair with - | ⟨hh, -⟩
    rcases List.mem_cons.mp hxmem with rfl | hxt
    · simpa using hxconn
    · have hx0 : x.addr = 0 := by
        rw [hzero x (by simp [hxt]) hxconn]
        rfl
      have hle : h.addr ≤ x.addr := hh x hxt
      have h0 : h.addr = 0 := by omega
      by_contra hcc
      have := hconn h (by simp) (by simpa using eq_true_of_ne_false (by simpa using hcc))
      exact this h0

theorem bsearch_sortedView_none {st : ServerState} {A : Nat} (h : Inv st) (hA : A ≠ 0)
    (hnot : A ∉ connectedAddrs st) :
    bsearch A (sortedView st) = none := by
  rw [bsearch_eq_none_iff]
  intro c hc
  have hc' := (sortedView_perm st).mem_iff.mp hc
  cases hcc : c.connected
  · rw [h.zero_slot c hc' hcc]
    simpa [zeroClient] using (Ne.symm hA)
  · intro he
    exact hnot (he ▸ mem_connectedAddrs hc' hcc)

theorem create_client_found {st : ServerState} {A : Nat} (h : Inv st) (hA : A ≠ 0)
    {c : Client} (hc : c ∈ st.clients) (hconn : c.connected = true) (haddr : c.addr = A) :
    ∃ i, create_client st A = (some i, ⟨st.tick, sortedView st, true⟩) ∧
      i < (sortedView st).length ∧ (sortedView st).getD i zeroClient = c ∧
      ∀ j, j < i → ((sortedView st).getD j zeroClient).addr ≠ A := by
  have hmem : c ∈ sortedView st := (sortedView_perm st).mem_iff.mpr hc
  have hfind : bsearch A (sortedView st) ≠ none := by
    intro hnone
    exact (bsearch_eq_none_iff A (sortedView st)).mp hnone c hmem haddr
  obtain ⟨i, hi⟩ := Option.ne_none_iff_exists'.mp hfind
  obtain ⟨hlen, hiaddr, hipre⟩ := bsearch_some_spec A (sortedView st) i hi
  refine ⟨i, ?_, hlen, ?_, hipre⟩
  · simp only [create_client]
    rw [hi]
  · set d := (sortedView st).getD i zeroClient with hd
    have hdmem : d ∈ sortedView st := by
      rw [hd, List.getD_eq_getElem _ zeroClient hlen]
      exact List.getElem_mem hlen
    have hdmem' : d ∈ st.clients := (sortedView_perm st).mem_iff.mp hdmem
    have hdconn : d.connected = true := by
      cases hdc : d.connected
      · have := h.zero_slot d hdmem' hdc
        rw [this] at hiaddr
        exact absurd hiaddr.symm hA
      · rfl
    exact pairwise_unique_mem h.distinct hdmem' hc hdconn hconn (by rw [hiaddr, haddr])

theorem create_client_fresh {st : ServerState} {A : Nat} (h : Inv st) (hA : A ≠ 0)
    (hnot : A ∉ connectedAddrs st) (hfree : numConnected st < NETWORK_CLIENTS) :
    ∃ rest, sortedView st = zeroClient :: rest ∧
      create_client st A = (some 0, ⟨st.tick, newClient A :: rest, false⟩) := by
  have hnone := bsearch_sortedView_none h hA hnot
  have hlen : (sortedView st).length = NETWORK_CLIENTS := by
    rw [(sortedView_perm st).length_eq, h.len]
  have hex : ∃ c ∈ sortedView st, c.connected = false := by
    obtain ⟨c, hc, hcc⟩ := exists_unconnected_slot h hfree
    exact ⟨c, (sortedView_perm st).mem_iff.mpr hc, hcc⟩
  have hhead : ((sortedView st).headD zeroClient).connected = false := by
    refine head_unconnected (sortedView_pairwise st h) ?_ ?_ hex
    · exact fun c hc => h.zero_slot c ((sortedView_perm st).mem_iff.mp hc)
    · exact fun c hc => h.conn_addr c ((sortedView_perm st).mem_iff.mp hc)
  match hcs : sortedView st with
  | [] => rw [hcs] at hlen; simp [NETWORK_CLIENTS] at hlen
  | c0 :: rest =>
    rw [hcs] at hhead hnone
    have hc0conn : c0.connected = false := by simpa using hhead
    have hc0 : c0 = zeroClient := by
      refine h.zero_slot c0 ?_ hc0conn
      exact (sortedView_perm st).mem_iff.mp (hcs ▸ (by simp : c0 ∈ c0 :: rest))
    refine ⟨rest, by rw [hc0], ?_⟩
    simp only [create_client]
    rw [hcs, hnone]
    simp [hc0conn]

theorem create_client_full {st : ServerState} {A : Nat} (h : Inv st) (hA : A ≠ 0)
    (hnot : A ∉ connectedAddrs st) (hfull : numConnected st = NETWORK_CLIENTS) :
    create_client st A = (none, ⟨st.tick, sortedView st, true⟩) := by
  have hnone := bsearch_sortedView_none h hA hnot
  have hlen : (sortedView st).length = NETWORK_CLIENTS := by
    rw [(sortedView_perm st).length_eq, h.len]
  match hcs : sortedView st with
  | [] => rw [hcs] at hlen; simp [NETWORK_CLIENTS] at hlen
  | c0 :: rest =>
    have hc0 : c0.connected = true := by
      refine all_connected_of_full h hfull c0 ?_
      exact (sortedView_perm st).mem_iff.mp (hcs ▸ (by simp : c0 ∈ c0 :: rest))
    rw [hcs] at hnone
    simp only [create_client]
    rw [hcs, hnone]
    simp [hc0]

theorem connectedAddrs_perm {st₁ st₂ : ServerState}
    (h : st₁.clients.Perm st₂.clients) :
    (connectedAddrs st₁).Perm (connectedAddrs st₂) :=
  List.Perm.map _ (List.Perm.filter _ h)

theorem numConnected_le {st : ServerState} (h : Inv st) :
    numConnected st ≤ NETWORK_CLIENTS := by
  unfold numConnected
  rw [← List.countP_eq_length_filter, ← h.len]
  exact List.countP_le_length _

theorem inv_create_fresh {st : ServerState} {A : Nat} (h : Inv st) (hA : A ≠ 0)
    (hnot : A ∉ connectedAddrs st) {rest : List Client}
    (hcs : sortedView st = zeroClient :: rest) :
    Inv ⟨st.tick, newClient A :: rest, false⟩ ∧
      (connectedAddrs ⟨st.tick, newClient A :: rest, false⟩).Perm
        (A :: connectedAddrs st) := by
  have hperm : (zeroClient :: rest).Perm st.clients := by
    rw [← hcs]
    exact sortedView_perm st
  have hrest : ∀ c ∈ rest, c ∈ st.clients := by
    intro c hc
    exact hperm.mem_iff.mp (by simp [hc])
  have hpair : (zeroClient :: rest).Pairwise Rdist :=
    (hperm.pairwise_iff (fun h => rdist_symm h)).mpr h.distinct
  have hrestpair : rest.Pairwise Rdist := by
    rcases hpair with - | ⟨-, hp⟩
    exact hp
  have hconnA : connectedAddrs ⟨st.tick, newClient A :: rest, false⟩ =
      A :: (rest.filter (fun c => c.connected)).map (fun c => c.addr) := by
    unfold connectedAddrs
    simp [newClient, zeroClient, List.filter_cons]
  have hrestAddrs :
      ((rest.filter (fun c => c.connected)).map (fun c => c.addr)).Perm
        (connectedAddrs st) := by
    have : (zeroClient :: rest).filter (fun c => c.connected) =
        rest.filter (fun c => c.connected) := by
      simp [List.filter_cons, zeroClient]
    unfold connectedAddrs
    rw [← this]
    exact List.Perm.map _ (List.Perm.filter _ hperm)
  constructor
  · refine ⟨?_, ?_, ?_, ?_, ?_, ?_, ?_⟩
    · have := hperm.length_eq
      simpa [h.len] using this
    · intro c hc hcc
      rcases List.mem_cons.mp hc with rfl | hc
      · simp [newClient] at hcc
      · exact h.zero_slot c (hrest c hc) hcc
    · intro c hc hcc
      rcases List.mem_cons.mp hc with rfl | hc
      · simpa [newClient, zeroClient] using hA
      · exact h.conn_addr c (hrest c hc) hcc
    · refine List.Pairwise.cons ?_ hrestpair
      intro y hy hyc hyconn
      have : y.addr ∈ connectedAddrs st := mem_connectedAddrs (hrest y hy) hyconn
      have hne : y.addr ≠ A := fun he => hnot (he ▸ this)
      simpa [newClient, zeroClient] using fun he => hne he.symm
    · intro hf
      simp at hf
    · intro c hc
      rcases List.mem_cons.mp hc with rfl | hc
      · simp [newClient, zeroClient]
      · exact h.last_le c (hrest c hc)
    · intro c hc
      rcases List.mem_cons.mp hc with rfl | hc
      · simp [newClient, zeroClient]
      · exact h.down_lt c (hrest c hc)
  · rw [hconnA]
    exact List.Perm.cons A hrestAddrs

theorem create_client_post {st : ServerState} {A : Nat} {i : Nat} {st₁ : ServerState}
    (h : Inv st) (hA : A ≠ 0)
    (hc : create_client st A = (some i, st₁)) :
    Inv st₁ ∧ st₁.tick = st.tick ∧ i < st₁.clients.length ∧
      (st₁.clients.getD i zeroClient).connected = true ∧
      (st₁.clients.getD i zeroClient).addr = A := by
  by_cases hmem : A ∈ connectedAddrs st
  · obtain ⟨c, hcm, hcc, hca⟩ := exists_of_mem_connectedAddrs hmem
    obtain ⟨j, hj, hjlen, hjval, -⟩ := create_client_found h hA hcm hcc hca
    rw [hj] at hc
    cases hc
    exact ⟨inv_sortedView st h, rfl, hjlen, by rw [hjval]; exact hcc,
      by rw [hjval]; exact hca⟩
  · rcases Nat.lt_or_ge (numConnected st) NETWORK_CLIENTS with hfree | hge
    · obtain ⟨rest, hrest, heq⟩ := create_client_fresh h hA hmem hfree
      rw [heq] at hc
      cases hc
      refine ⟨(inv_create_fresh h hA hmem hrest).1, rfl, ?_, ?_, ?_⟩
      · simp
      · simp [newClient, zeroClient]
      · simp [newClient, zeroClient]
    · have hfull : numConnected st = NETWORK_CLIENTS :=
        le_antisymm (numConnected_le h) hge
      rw [create_client_full h hA hmem hfull] at hc
      cases hc

theorem inv_create_snd {st : ServerState} {A : Nat} {oi : Option Nat} {st₁ : ServerState}
    (h : Inv st) (hA : A ≠ 0) (hc : create_client st A = (oi, st₁)) :
    Inv st₁ ∧ st₁.tick = st.tick := by
  by_cases hmem : A ∈ connectedAddrs st
  · obtain ⟨c, hcm, hcc, hca⟩ := exists_of_mem_connectedAddrs hmem
    obtain ⟨j, hj, -, -, -⟩ := create_client_found h hA hcm hcc hca
    rw [hj] at hc
    cases hc
    exact ⟨inv_sortedView st h, rfl⟩
  · rcases Nat.lt_or_ge (numConnected st) NETWORK_CLIENTS with hfree | hge
    · obtain ⟨rest, hrest, heq⟩ := create_client_fresh h hA hmem hfree
      rw [heq] at hc
      cases hc
      exact ⟨(inv_create_fresh h hA hmem hrest).1, rfl⟩
    · have hfull : numConnected st = NETWORK_CLIENTS :=
        le_antisymm (numConnected_le h) hge
      rw [create_client_full h hA hmem hfull] at hc
      cases hc
      exact ⟨inv_sortedView st h, rfl⟩

theorem inv_receive_packet {st : ServerState} {addr : Nat} {data : List Nat}
    (h : Inv st) (haddr : addr ≠ 0) (hdata : ∀ b ∈ data, b < 256) :
    Inv (receive_packet st addr data) := by
  unfold receive_packet
  by_cases hlen : data.length < 5
  · simpa [hlen] using h
  · rw [if_neg hlen]
    rcases hcr : create_client st addr with ⟨oi, st₁⟩
    match oi with
    | none =>
      simp only []
      exact (inv_create_snd h haddr hcr).1
    | some i =>
      simp only []
      set c := st₁.clients.getD i zeroClient with hcdef
      by_cases hstale : read_uint32 data ≤ c.recv_tick
      · rw [if_pos hstale]
        exact (inv_create_snd h haddr hcr).1
      · rw [if_neg hstale]
        obtain ⟨h₁, htick, hilen, hconn, haddri⟩ := create_client_post h haddr hcr
        have hd4 : data.getD 4 0 < 256 := by
          have h4 : 4 < data.length := by omega
          rw [List.getD_eq_getElem data 0 h4]
          exact hdata _ (List.getElem_mem h4)
        refine ⟨?_, ?_, ?_, ?_, ?_, ?_, ?_⟩
        · simpa using h₁.len
        · intro x hx hxc
          rcases List.mem_or_eq_of_mem_set hx with hx | rfl
          · exact h₁.zero_slot x hx hxc
          · exfalso
            have hcc : c.connected = true := by rw [hcdef]; exact hconn
            have hcf : c.connected = false := hxc
            rw [hcc] at hcf
            simp at hcf
        · intro x hx hxc
          rcases List.mem_or_eq_of_mem_set hx with hx | rfl
          · exact h₁.conn_addr x hx hxc
          · simpa using haddri ▸ haddr
        · exact pairwise_set_proj (fun c => (c.connected, c.addr))
            (fun x y => x.1 = true → y.1 = true → x.2 ≠ y.2)
            st₁.clients i _ h₁.distinct (fun _ => rfl)
        · intro hs
          have := h₁.sorted_ok (by simpa using hs)
          exact pairwise_set_proj (fun c => c.addr) (fun x y => x ≤ y)
            st₁.clients i _ this (fun _ => rfl)
        · intro x hx
          rcases List.mem_or_eq_of_mem_set hx with hx | rfl
          · exact h₁.last_le x hx
          · exact Nat.le_refl _
        · intro x hx
          rcases List.mem_or_eq_of_mem_set hx with hx | rfl
          · exact h₁.down_lt x hx
          · exact hd4

theorem tick_client_conn {t : Nat} {c : Client}
    (h : (tick_client t c).1.connected = true) :
    c.connected = true ∧ (tick_client t c).1.addr = c.addr ∧
      (tick_client t c).1.down = c.down ∧ (tick_client t c).1.last_tick = c.last_tick ∧
      (tick_client t c).1.recv_tick = c.recv_tick := by
  unfold tick_client at h ⊢
  cases hc : c.connected
  · rw [hc] at h
    simp at h
    rw [h] at hc
    simp at hc
  · by_cases ht : t - c.last_tick > NETWORK_TIMEOUT
    · rw [hc] at h
      simp [ht, zeroClient] at h
    · simp [hc, ht, handle_client]

theorem tick_client_cases (t : Nat) (c : Client) :
    (tick_client t c).1 = c ∧ c.connected = false ∨
      (tick_client t c).1 = zeroClient ∨
      ((tick_client t c).1 = (handle_client c).1 ∧ c.connected = true ∧
        ¬(t - c.last_tick > NETWORK_TIMEOUT)) := by
  unfold tick_client
  cases hc : c.connected
  · exact Or.inl ⟨by simp, rfl⟩
  · by_cases ht : t - c.last_tick > NETWORK_TIMEOUT
    · exact Or.inr (Or.inl (by simp [ht]))
    · exact Or.inr (Or.inr ⟨by simp [ht], rfl, ht⟩)

theorem inv_run_tick {st : ServerState} (h : Inv st) : Inv (run_tick st).1 := by
  unfold run_tick
  simp only []
  refine ⟨?_, ?_, ?_, ?_, ?_, ?_, ?_⟩
  · simpa using h.len
  · intro x hx hxc
    obtain ⟨c, hcm, rfl⟩ := List.mem_map.mp hx
    rcases tick_client_cases (st.tick + 1) c with ⟨he, hcc⟩ | he | ⟨he, hcc, -⟩
    · rw [he]
      exact h.zero_slot c hcm (by rw [← he]; exact hxc)
    · exact he
    · rw [he] at hxc ⊢
      have : c.connected = false := by
        simpa [handle_client] using hxc
      rw [this] at hcc
      cases hcc
  · intro x hx hxc
    obtain ⟨c, hcm, rfl⟩ := List.mem_map.mp hx
    obtain ⟨hcc, haddr, -, -, -⟩ := tick_client_conn hxc
    rw [haddr]
    exact h.conn_addr c hcm hcc
  · rw [List.pairwise_map]
    refine List.Pairwise.imp ?_ h.distinct
    intro a b hab ha hb
    obtain ⟨hac, haaddr, -, -, -⟩ := tick_client_conn ha
    obtain ⟨hbc, hbaddr, -, -, -⟩ := tick_client_conn hb
    rw [haaddr, hbaddr]
    exact hab hac hbc
  · intro hs
    rw [Bool.and_eq_true] at hs
    obtain ⟨hs1, hs2⟩ := hs
    have hnd : ∀ c ∈ st.clients,
        ¬(c.connected = true ∧ st.tick + 1 - c.last_tick > NETWORK_TIMEOUT) := by
      have hs2' : ∀ x ∈ st.clients, x.connected = true →
          st.tick + 1 ≤ NETWORK_TIMEOUT + x.last_tick := by simpa using hs2
      intro c hc hcon
      have := hs2' c hc hcon.1
      omega
    have haddr : ∀ x ∈ st.clients, (tick_client (st.tick + 1) x).1.addr = x.addr := by
      intro x hx
      unfold tick_client
      cases hxc : x.connected
      · simp
      · have hxt : ¬(st.tick + 1 - x.last_tick > NETWORK_TIMEOUT) := by
          intro hxt
          exact hnd x hx ⟨hxc, hxt⟩
        simp [hxt, handle_client]
    rw [List.pairwise_map]
    refine List.Pairwise.imp_of_mem ?_ (h.sorted_ok hs1)
    intro a b ha hb hab
    show (tick_client (st.tick + 1) a).1.addr ≤ (tick_client (st.tick + 1) b).1.addr
    rw [haddr a ha, haddr b hb]
    exact hab
  · intro x hx
    obtain ⟨c, hcm, rfl⟩ := List.mem_map.mp hx
    rcases tick_client_cases (st.tick + 1) c with ⟨he, -⟩ | he | ⟨he, -, -⟩
    · rw [he]
      exact le_trans (h.last_le c hcm) (Nat.le_succ _)
    · rw [he]
      exact Nat.zero_le _
    · rw [he]
      exact le_trans (h.last_le c hcm) (Nat.le_succ _)
  · intro x hx
    obtain ⟨c, hcm, rfl⟩ := List.mem_map.mp hx
    rcases tick_client_cases (st.tick + 1) c with ⟨he, -⟩ | he | ⟨he, -, -⟩
    · rw [he]
      exact h.down_lt c hcm
    · rw [he]
      exact Nat.lt_of_sub_eq_succ rfl
    · rw [he]
      exact h.down_lt c hcm

theorem inv_of_reachable {st : ServerState} (h : Reachable st) : Inv st := by
  induction h with
  | init => exact inv_initState
  | tick _ ih => exact inv_run_tick ih
  | recv addr data _ haddr hdata ih => exact inv_receive_packet ih haddr hdata

theorem findClient_none_of_not_connected {st : ServerState} {A : Nat}
    (h : A ∉ connectedAddrs st) : findClient st A = none := by
  unfold findClient
  rw [List.find?_eq_none]
  intro x hx hpx
  rw [Bool.and_eq_true, beq_iff_eq] at hpx
  exact h (hpx.2 ▸ mem_connectedAddrs hx hpx.1)

theorem findClient_eq_some {st : ServerState} {A : Nat}
    (hd : st.clients.Pairwise Rdist) {c : Client}
    (hc : c ∈ st.clients) (hcc : c.connected = true) (hca : c.addr = A) :
    findClient st A = some c := by
  unfold findClient
  refine find?_unique_of_mem ?_ hc (by simp [hcc, hca])
  intro x hx hpx
  rw [Bool.and_eq_true, beq_iff_eq] at hpx
  exact pairwise_unique_mem hd hx hc hpx.1 hcc (by rw [hpx.2, hca])

theorem findClient_spec {st : ServerState} {A : Nat} {c : Client}
    (h : findClient st A = some c) :
    c ∈ st.clients ∧ c.connected = true ∧ c.addr = A := by
  unfold findClient at h
  have h1 := List.mem_of_find?_eq_some h
  have h2 := List.find?_some h
  rw [Bool.and_eq_true, beq_iff_eq] at h2
  exact ⟨h1, h2.1, h2.2⟩

theorem find_pA_perm {A : Nat} {l₁ l₂ : List Client}
    (hd : l₁.Pairwise Rdist) (hp : l₁.Perm l₂) :
    l₂.find? (fun c => c.connected && c.addr == A) =
      l₁.find? (fun c => c.connected && c.addr == A) := by
  cases hfc : l₁.find? (fun c => c.connected && c.addr == A) with
  | none =>
    rw [List.find?_eq_none] at hfc ⊢
    intro x hx
    exact hfc x (hp.mem_iff.mpr hx)
  | some c =>
    have hcm := List.mem_of_find?_eq_some hfc
    have hpc := List.find?_some hfc
    rw [Bool.and_eq_true, beq_iff_eq] at hpc
    refine find?_unique_of_mem ?_ (hp.mem_iff.mp hcm) (by simp [hpc.1, hpc.2])
    intro x hx hpx
    rw [Bool.and_eq_true, beq_iff_eq] at hpx
    exact pairwise_unique_mem hd (hp.mem_iff.mpr hx) hcm hpx.1 hpc.1
      (by rw [hpx.2, hpc.2])

theorem findClient_perm_eq {st₁ st₂ : ServerState} {A : Nat}
    (hd : st₁.clients.Pairwise Rdist) (hp : st₁.clients.Perm st₂.clients) :
    findClient st₂ A = findClient st₁ A :=
  find_pA_perm hd hp

/-- A characterization of the state component of `create_client`: the
registry is either just re-sorted (a permutation) or a fresh session
replaced the zero-filled head slot. -/
theorem create_client_clients {st : ServerState} {addr : Nat} {oi : Option Nat}
    {st₁ : ServerState} (h : Inv st) (haddr : addr ≠ 0)
    (hcr : create_client st addr = (oi, st₁)) :
    st₁.clients.Perm st.clients ∨
      ∃ rest, (zeroClient :: rest).Perm st.clients ∧
        st₁.clients = newClient addr :: rest := by
  by_cases hmem : addr ∈ connectedAddrs st
  · obtain ⟨c, hcm, hcc, hca⟩ := exists_of_mem_connectedAddrs hmem
    obtain ⟨j, hj, -, -, -⟩ := create_client_found h haddr hcm hcc hca
    rw [hj] at hcr
    cases hcr
    exact Or.inl (sortedView_perm st)
  · rcases Nat.lt_or_ge (numConnected st) NETWORK_CLIENTS with hfree | hge
    · obtain ⟨rest, hrest, heq⟩ := create_client_fresh h haddr hmem hfree
      rw [heq] at hcr
      cases hcr
      exact Or.inr ⟨rest, hrest ▸ sortedView_perm st, rfl⟩
    · rw [create_client_full h haddr hmem
        (le_antisymm (numConnected_le h) hge)] at hcr
      cases hcr
      exact Or.inl (sortedView_perm st)

theorem create_client_findClient {st : ServerState} {addr : Nat} {oi : Option Nat}
    {st₁ : ServerState} (h : Inv st) (haddr : addr ≠ 0)
    (hcr : create_client st addr = (oi, st₁)) {A : Nat} (hne : A ≠ addr) :
    findClient st₁ A = findClient st A := by
  rcases create_client_clients h haddr hcr with hp | ⟨rest, hp, hcl⟩
  · exact findClient_perm_eq h.distinct hp.symm
  · have hdz : (zeroClient :: rest).Pairwise Rdist :=
      (hp.pairwise_iff (fun h => rdist_symm h)).mpr h.distinct
    unfold findClient
    rw [hcl,
      List.find?_cons_of_neg _ (by simp [newClient, zeroClient, Ne.symm hne]),
      find_pA_perm hdz hp,
      List.find?_cons_of_neg _ (by simp [zeroClient])]

/-- receive_packet does not touch the session of any other address:
lookups for `A` are unchanged by a datagram from `addr ≠ A`. -/
theorem receive_packet_other {st : ServerState} {addr : Nat} {data : List Nat}
    (h : Inv st) (haddr : addr ≠ 0) {A : Nat} (hne : A ≠ addr) :
    findClient (receive_packet st addr data) A = findClient st A := by
  unfold receive_packet
  by_cases hlen : data.length < 5
  · rw [if_pos hlen]
  · rw [if_neg hlen]
    rcases hcr : create_client st addr with ⟨oi, st₁⟩
    have hfind₁ : findClient st₁ A = findClient st A :=
      create_client_findClient h haddr hcr hne
    match oi with
    | none =>
      simp only []
      exact hfind₁
    | some i =>
      simp only []
      set c := st₁.clients.getD i zeroClient with hcdef
      by_cases hstale : read_uint32 data ≤ c.recv_tick
      · rw [if_pos hstale]
        exact hfind₁
      · rw [if_neg hstale]
        obtain ⟨-, -, hilen, hconn, haddri⟩ := create_client_post h haddr hcr
        have hca : c.addr = addr := by rw [hcdef]; exact haddri
        have hbeq : (c.addr == A) = false :=
          beq_eq_false_iff_ne.mpr (by rw [hca]; exact fun he => hne he.symm)
        rw [← hfind₁]
        unfold findClient
        refine find?_set_of_none st₁.clients i _ ?_ ?_
        · simp [hbeq]
        · intro hi
          rw [← hcdef]
          simp [hbeq]

/-- A short or stale (sequence not strictly greater than `recv_tick`)
datagram from a session's own address leaves the session record untouched. -/
theorem receive_packet_self_stale {st : ServerState} {addr : Nat} {data : List Nat}
    (h : Inv st) (haddr : addr ≠ 0) {c : Client} (hc : findClient st addr = some c)
    (hstale : data.length < 5 ∨ read_uint32 data ≤ c.recv_tick) :
    findClient (receive_packet st addr data) addr = some c := by
  unfold receive_packet
  by_cases hlen : data.length < 5
  · rw [if_pos hlen]
    exact hc
  · rw [if_neg hlen]
    obtain ⟨hcm, hcc, hca⟩ := findClient_spec hc
    obtain ⟨j, hj, hjlen, hjval, hjpre⟩ := create_client_found h haddr hcm hcc hca
    rw [hj]
    simp only []
    rw [hjval]
    rw [if_pos (hstale.resolve_left hlen)]
    rw [← hc]
    exact findClient_perm_eq h.distinct (sortedView_perm st).symm

/-- A fresh datagram from a session's own address updates exactly
`last_tick`, `recv_tick`, `pressed` and `down` of that session. -/
theorem receive_packet_self_fresh {st : ServerState} {addr : Nat} {data : List Nat}
    (h : Inv st) (haddr : addr ≠ 0) {c : Client} (hc : findClient st addr = some c)
    (hlen : ¬data.length < 5) (hfresh : ¬read_uint32 data ≤ c.recv_tick) :
    findClient (receive_packet st addr data) addr =
      some { c with last_tick := st.tick, recv_tick := read_uint32 data,
                    pressed := (255 ^^^ c.down) &&& data.getD 4 0,
                    down := data.getD 4 0 } := by
  unfold receive_packet
  rw [if_neg hlen]
  obtain ⟨hcm, hcc, hca⟩ := findClient_spec hc
  obtain ⟨j, hj, hjlen, hjval, hjpre⟩ := create_client_found h haddr hcm hcc hca
  rw [hj]
  simp only []
  rw [hjval]
  rw [if_neg hfresh]
  unfold findClient
  simp only []
  refine find?_set_match (sortedView st) j _ hjlen ?_ ?_
  · simp [hcc, hca]
  · intro k hk
    have hne := hjpre k hk
    simp only [List.getD_eq_getElem?_getD] at hne
    simp [hne]

/-- A well-formed datagram from an unknown address connects a new session
and immediately stamps it with the current global tick. -/
theorem receive_packet_connect {st : ServerState} {addr : Nat} {data : List Nat}
    (h : Inv st) (haddr : addr ≠ 0) (hnot : addr ∉ connectedAddrs st)
    (hfree : numConnected st < NETWORK_CLIENTS) (hlen : ¬data.length < 5)
    (hseq : 1 ≤ read_uint32 data) :
    findClient (receive_packet st addr data) addr =
      some { (newClient addr) with
             last_tick := st.tick, recv_tick := read_uint32 data,
             pressed := (255 ^^^ (newClient addr).down) &&& data.getD 4 0,
             down := data.getD 4 0 } := by
  unfold receive_packet
  rw [if_neg hlen]
  obtain ⟨rest, hrest, heq⟩ := create_client_fresh h haddr hnot hfree
  rw [heq]
  simp only []
  have hget : (newClient addr :: rest).getD 0 zeroClient = newClient addr := rfl
  rw [hget]
  rw [if_neg (by simp [newClient, zeroClient]; omega)]
  unfold findClient
  simp only []
  refine find?_set_match (newClient addr :: rest) 0 _ (by simp) ?_ ?_
  · simp [newClient, zeroClient]
  · intro k hk
    omega

theorem tick_client_snd_eq {t : Nat} {c : Client} {p : Nat × List Nat}
    (h : (tick_client t c).2 = some p) :
    c.connected = true ∧ ¬(t - c.last_tick > NETWORK_TIMEOUT) ∧ p.1 = c.addr := by
  unfold tick_client at h
  cases hc : c.connected
  · rw [hc] at h
    simp at h
  · by_cases ht : t - c.last_tick > NETWORK_TIMEOUT
    · rw [hc] at h
      simp [ht] at h
    · rw [hc] at h
      simp [ht] at h
      exact ⟨rfl, ht, by rw [← h]⟩

theorem tick_client_timeout {t : Nat} {c : Client} (hc : c.connected = true)
    (ht : t - c.last_tick > NETWORK_TIMEOUT) :
    (tick_client t c).1 = zeroClient := by
  unfold tick_client
  simp [hc, ht]

theorem findClient_none_of_NoA {st : ServerState} {A : Nat} (h : NoA st A) :
    findClient st A = none := by
  unfold findClient
  rw [List.find?_eq_none]
  intro x hx hpx
  rw [Bool.and_eq_true, beq_iff_eq] at hpx
  exact h x hx hpx.1 hpx.2

theorem pA_unique {l : List Client} {A : Nat} {c : Client}
    (hd : l.Pairwise Rdist)
    (hfind : l.find? (fun c => c.connected && c.addr == A) = some c) :
    ∀ x ∈ l, x.connected = true → x.addr = A → x = c := by
  intro x hx hxc hxa
  refine pairwise_find?_unique ?_ hd hfind x hx (by simp [hxc, hxa])
  intro a b hpa hpb hab
  rw [Bool.and_eq_true, beq_iff_eq] at hpa hpb
  exact hab hpa.1 hpb.1 (by rw [hpa.2, hpb.2])

theorem run_tick_preserve_NoA {st : ServerState} {A : Nat} (h : NoA st A) :
    NoA (run_tick st).1 A ∧ ∀ p ∈ (run_tick st).2, p.1 ≠ A := by
  constructor
  · intro x hx hxc
    have hx' : x ∈ st.clients.map (fun c => (tick_client (st.tick + 1) c).1) := hx
    obtain ⟨c, hcm, rfl⟩ := List.mem_map.mp hx'
    obtain ⟨hcc, haddr, -, -, -⟩ := tick_client_conn hxc
    rw [haddr]
    exact h c hcm hcc
  · intro p hp
    have hp' : p ∈ st.clients.filterMap (fun c => (tick_client (st.tick + 1) c).2) := hp
    obtain ⟨c, hcm, hcp⟩ := List.mem_filterMap.mp hp'
    obtain ⟨hcc, -, hpa⟩ := tick_client_snd_eq hcp
    rw [hpa]
    exact h c hcm hcc

theorem run_tick_evict {st : ServerState} {A : Nat} {c : Client}
    (h : Inv st) (hc : findClient st A = some c)
    (ht : st.tick + 1 - c.last_tick > NETWORK_TIMEOUT) :
    NoA (run_tick st).1 A ∧ ∀ p ∈ (run_tick st).2, p.1 ≠ A := by
  have huniq : ∀ x ∈ st.clients, x.connected = true → x.addr = A → x = c :=
    pA_unique h.distinct hc
  constructor
  · intro x hx hxc
    have hx' : x ∈ st.clients.map (fun c => (tick_client (st.tick + 1) c).1) := hx
    obtain ⟨c₀, hcm, rfl⟩ := List.mem_map.mp hx'
    obtain ⟨hcc, haddr, -, -, -⟩ := tick_client_conn hxc
    rw [haddr]
    intro hca
    have : c₀ = c := huniq c₀ hcm hcc hca
    rw [this] at hxc
    rw [tick_client_timeout (this ▸ hcc) ht] at hxc
    simp [zeroClient] at hxc
  · intro p hp
    have hp' : p ∈ st.clients.filterMap (fun c => (tick_client (st.tick + 1) c).2) := hp
    obtain ⟨c₀, hcm, hcp⟩ := List.mem_filterMap.mp hp'
    obtain ⟨hcc, hnt, hpa⟩ := tick_client_snd_eq hcp
    rw [hpa]
    intro hca
    have : c₀ = c := huniq c₀ hcm hcc hca
    rw [this] at hnt
    exact hnt ht

theorem run_ticks_NoA {A : Nat} :
    ∀ (m : Nat) (st : ServerState), NoA st A →
      NoA (run_ticks st m).1 A ∧ ∀ p ∈ (run_ticks st m).2, p.1 ≠ A := by
  intro m
  induction m with
  | zero =>
    intro st h
    exact ⟨h, by simp [run_ticks]⟩
  | succ n ih =>
    intro st h
    obtain ⟨h1, h2⟩ := run_tick_preserve_NoA h
    obtain ⟨h3, h4⟩ := ih (run_tick st).1 h1
    refine ⟨h3, ?_⟩
    intro p hp
    unfold run_ticks at hp
    simp only [] at hp
    rcases List.mem_append.mp hp with hp | hp
    · exact h2 p hp
    · exact h4 p hp

theorem run_tick_pressed_zero {st : ServerState} {A : Nat} {c : Client}
    (hfc : findClient (run_tick st).1 A = some c) : c.pressed = 0 := by
  obtain ⟨hcm, hcc, -⟩ := findClient_spec hfc
  have hcm' : c ∈ st.clients.map (fun c => (tick_client (st.tick + 1) c).1) := hcm
  obtain ⟨c₀, hc₀, rfl⟩ := List.mem_map.mp hcm'
  rcases tick_client_cases (st.tick + 1) c₀ with ⟨he, hcn⟩ | he | ⟨he, -, -⟩
  · rw [he] at hcc
    rw [hcn] at hcc
    cases hcc
  · rw [he]
    rfl
  · rw [he]
    rfl

theorem connectedAddrs_initState : connectedAddrs initState = [] := by
  unfold connectedAddrs initState
  simp [List.filter_replicate, zeroClient]

theorem creates_go (L : List Nat) :
    ∀ st : ServerState, Inv st → L.Nodup → (∀ a ∈ L, a ≠ 0) →
      (∀ a ∈ L, a ∉ connectedAddrs st) →
      L.length + numConnected st ≤ NETWORK_CLIENTS →
      Inv (L.foldl (fun s a => (create_client s a).2) st) ∧
        (connectedAddrs (L.foldl (fun s a => (create_client s a).2) st)).Perm
          (L ++ connectedAddrs st) := by
  induction L with
  | nil =>
    intro st h _ _ _ _
    exact ⟨h, by simp⟩
  | cons a L ih =>
    intro st h hnd h0 hnot hlen
    have ha0 : a ≠ 0 := h0 a (by simp)
    have hanot : a ∉ connectedAddrs st := hnot a (by simp)
    have hfree : numConnected st < NETWORK_CLIENTS := by
      have := hlen
      simp only [List.length_cons] at this
      omega
    obtain ⟨rest, hrest, heq⟩ := create_client_fresh h ha0 hanot hfree
    obtain ⟨hinv₁, hconn₁⟩ := inv_create_fresh h ha0 hanot hrest
    have hfold : (a :: L).foldl (fun s a => (create_client s a).2) st =
        L.foldl (fun s a => (create_client s a).2)
          ⟨st.tick, newClient a :: rest, false⟩ := by
      rw [List.foldl_cons, heq]
    rw [hfold]
    have hnum₁ : numConnected ⟨st.tick, newClient a :: rest, false⟩ =
        numConnected st + 1 := by
      rw [← length_connectedAddrs, ← length_connectedAddrs, hconn₁.length_eq]
      simp
    have hnotin₁ : ∀ b ∈ L, b ∉ connectedAddrs ⟨st.tick, newClient a :: rest, false⟩ := by
      intro b hb hbmem
      rcases List.mem_cons.mp (hconn₁.mem_iff.mp hbmem) with heq | hbmem'
      · rcases hnd with - | ⟨hna, -⟩
        exact hna b hb heq.symm
      · exact hnot b (by simp [hb]) hbmem'
    have hnd' : L.Nodup := by
      rcases hnd with - | ⟨-, h⟩
      exact h
    obtain ⟨hinv₂, hconn₂⟩ := ih ⟨st.tick, newClient a :: rest, false⟩ hinv₁ hnd'
      (fun b hb => h0 b (by simp [hb])) hnotin₁
      (by simp only [List.length_cons] at hlen; omega)
    refine ⟨hinv₂, ?_⟩
    refine hconn₂.trans ?_
    refine (List.Perm.append_left L hconn₁).trans ?_
    exact List.perm_middle

theorem and255 (x : Nat) : x &&& 255 = x % 256 := by
  have h := Nat.and_pow_two_sub_one_eq_mod x 8
  norm_num at h
  exact h

theorem shiftRight_mod_lt (x s : Nat) : (x >>> s) % 256 < 2 ^ 8 := by
  have : (x >>> s) % 256 < 256 := Nat.mod_lt _ (by norm_num)
  simpa using this

theorem lor_shiftLeft_add {a b n : Nat} (hb : b < 2 ^ n) :
    (a <<< n) ||| b = a * 2 ^ n + b := by
  rw [Nat.shiftLeft_eq]
  apply Nat.eq_of_testBit_eq
  intro i
  rw [Nat.testBit_lor, Nat.mul_comm, Nat.testBit_mul_pow_two_add a hb i]
  have hml : (2 ^ n * a).testBit i = if i < n then false else a.testBit (i - n) := by
    have h0 : (0 : Nat) < 2 ^ n := Nat.pos_pow_of_pos n (by norm_num)
    have := Nat.testBit_mul_pow_two_add a h0 i
    simpa using this
  rw [hml]
  by_cases hi : i < n
  · simp [hi]
  · have hbf : b.testBit i = false := by
      refine Nat.testBit_lt_two_pow (lt_of_lt_of_le hb ?_)
      exact Nat.pow_le_pow_right (by norm_num) (by omega)
    simp [hi, hbf]

theorem read_write_uint32 (x : Nat) (rest : List Nat) (hx : x < 2 ^ 32) :
    read_uint32 (write_uint32 x ++ rest) = x := by
  unfold read_uint32 write_uint32
  simp only [List.cons_append, List.nil_append, List.getD_cons_zero, List.getD_cons_succ,
    and255]
  have hb3 : x % 256 < 2 ^ 8 := by
    have : x % 256 < 256 := Nat.mod_lt _ (by norm_num)
    simpa using this
  rw [Nat.lor_assoc, Nat.lor_assoc]
  rw [lor_shiftLeft_add hb3]
  have hb2 : (x >>> 8) % 256 * 2 ^ 8 + x % 256 < 2 ^ 16 := by
    have h1 := shiftRight_mod_lt x 8
    have h2 : x % 256 < 256 := Nat.mod_lt _ (by norm_num)
    norm_num at h1 ⊢
    omega
  rw [lor_shiftLeft_add hb2]
  have hb1 : (x >>> 16) % 256 * 2 ^ 16 + ((x >>> 8) % 256 * 2 ^ 8 + x % 256) < 2 ^ 24 := by
    have h1 := shiftRight_mod_lt x 16
    have h2 := shiftRight_mod_lt x 8
    have h3 : x % 256 < 256 := Nat.mod_lt _ (by norm_num)
    norm_num at h1 h2 ⊢
    omega
  rw [lor_shiftLeft_add hb1]
  simp only [Nat.shiftRight_eq_div_pow]
  norm_num
  norm_num at hx
  omega

theorem handle_iter_send_tick (A k : Nat) :
    (handle_iter (newClient A) k).send_tick = k % 2 ^ 32 := by
  induction k with
  | zero => simp [handle_iter, newClient, zeroClient]
  | succ n ih =>
    show (handle_client (handle_iter (newClient A) n)).1.send_tick = (n + 1) % 2 ^ 32
    simp only [handle_client]
    rw [ih]
    exact Nat.mod_add_mod n (2 ^ 32) 1

theorem handle_client_seq (c : Client) :
    read_uint32 (handle_client c).2 = (c.send_tick + 1) % 2 ^ 32 := by
  simp only [handle_client]
  rw [List.append_assoc, List.append_assoc]
  exact read_write_uint32 _ _ (Nat.mod_lt _ (by norm_num))

theorem sentSeq_newClient (A k : Nat) :
    sentSeq (newClient A) k = (k + 1) % 2 ^ 32 := by
  unfold sentSeq
  rw [handle_client_seq, handle_iter_send_tick]
  exact Nat.mod_add_mod k (2 ^ 32) 1

theorem create_client_tick (st : ServerState) (A : Nat) :
    (create_client st A).2.tick = st.tick := by
  unfold create_client
  simp only []
  cases hb : bsearch A (sortedView st) with
  | some i => rfl
  | none =>
    cases hcs : sortedView st with
    | nil => rfl
    | cons c0 rest =>
      by_cases hc : c0.connected = true
      · simp [hc]
      · simp [hc]

theorem receive_packet_tick (st : ServerState) (addr : Nat) (data : List Nat) :
    (receive_packet st addr data).tick = st.tick := by
  unfold receive_packet
  by_cases hlen : data.length < 5
  · simp [hlen]
  · rw [if_neg hlen]
    rcases hcr : create_client st addr with ⟨oi, st₁⟩
    have ht : st₁.tick = st.tick := by
      have h := create_client_tick st addr
      rw [hcr] at h
      exact h
    match oi with
    | none =>
      simp only []
      exact ht
    | some i =>
      simp only []
      by_cases hst : read_uint32 data ≤ (st₁.clients.getD i zeroClient).recv_tick
      · rw [if_pos hst]
        exact ht
      · rw [if_neg hst]
        exact ht

theorem numConnected_initState : numConnected initState = 0 := by
  rw [← length_connectedAddrs, connectedAddrs_initState]
  rfl

theorem countP_pA_le_one {l : List Client} (hd : l.Pairwise Rdist) {A : Nat} :
    l.countP (fun c => c.connected && c.addr == A) ≤ 1 := by
  induction l with
  | nil => simp
  | cons x xs ih =>
    rcases hd with - | ⟨hx, hxs⟩
    by_cases hpx : (fun c => c.connected && c.addr == A) x = true
    · rw [List.countP_cons_of_pos (fun c => c.connected && c.addr == A) xs hpx]
      have hz : xs.countP (fun c => c.connected && c.addr == A) = 0 := by
        rw [List.countP_eq_zero]
        intro y hy hpy
        simp only [Bool.and_eq_true, beq_iff_eq] at hpx hpy
        exact hx y hy hpx.1 hpy.1 (hpx.2.trans hpy.2.symm)
      omega
    · rw [List.countP_cons_of_neg (fun c => c.connected && c.addr == A) xs hpx]
      exact ih hxs

theorem findClient_bump (st : ServerState) (t A : Nat) :
    findClient (bump st t) A = findClient st A := rfl

theorem inv_tick_bump {st : ServerState} (h : Inv st) {t : Nat} (ht : st.tick ≤ t) :
    Inv (bump st t) := by
  refine ⟨h.len, h.zero_slot, h.conn_addr, h.distinct, h.sorted_ok, ?_, h.down_lt⟩
  intro c hc
  exact le_trans (h.last_le c hc) ht

theorem inv_exampleState : Inv exampleState :=
  inv_receive_packet inv_initState (by decide) (by decide)

theorem exampleState_tick : exampleState.tick = 0 := by
  unfold exampleState
  rw [receive_packet_tick]
  rfl

theorem findClient_exampleState : findClient exampleState 7 = some exampleClient7 := by
  have h := receive_packet_connect inv_initState (show (7:Nat) ≠ 0 by decide)
    (by rw [connectedAddrs_initState]; simp)
    (by rw [numConnected_initState]; norm_num [NETWORK_CLIENTS])
    (show ¬([0, 0, 0, 1, 3] : List Nat).length < 5 by decide)
    (show 1 ≤ read_uint32 [0, 0, 0, 1, 3] by decide)
  rw [show exampleState = receive_packet initState 7 [0, 0, 0, 1, 3] from rfl, h]
  rfl

/-- Claim C1, counterexample to the claim as stated: with the global tick
at 300 and an empty registry, create_client allocates a new session whose
`last_tick` is 0 — not the current global tick 300.  (`last_tick` is only
stamped with the current tick later, by `receive_packets`, and only if the
triggering datagram's sequence number is accepted.) -/
theorem C1_counterexample :
    ((create_client ⟨300, List.replicate NETWORK_CLIENTS zeroClient, false⟩ 7).2.clients.getD
        0 zeroClient).last_tick = 0 ∧
      (create_client ⟨300, List.replicate NETWORK_CLIENTS zeroClient, false⟩ 7).1 = some 0 ∧
      (⟨300, List.replicate NETWORK_CLIENTS zeroClient, false⟩ : ServerState).tick = 300 ∧
      ((create_client ⟨300, List.replicate NETWORK_CLIENTS zeroClient, false⟩ 7).2.clients.getD
        0 zeroClient).last_tick ≠ 300 := by
  have hinv : Inv (⟨300, List.replicate NETWORK_CLIENTS zeroClient, false⟩ : ServerState) :=
    inv_tick_bump inv_initState (Nat.zero_le 300)
  have hnot : (7 : Nat) ∉
      connectedAddrs ⟨300, List.replicate NETWORK_CLIENTS zeroClient, false⟩ := by
    rw [show connectedAddrs ⟨300, List.replicate NETWORK_CLIENTS zeroClient, false⟩ =
        connectedAddrs initState from rfl, connectedAddrs_initState]
    simp
  have hfree : numConnected ⟨300, List.replicate NETWORK_CLIENTS zeroClient, false⟩ <
      NETWORK_CLIENTS := by
    rw [show numConnected ⟨300, List.replicate NETWORK_CLIENTS zeroClient, false⟩ =
        numConnected initState from rfl, numConnected_initState]
    norm_num [NETWORK_CLIENTS]
  obtain ⟨rest, hrest, heq⟩ := create_client_fresh hinv (by decide) hnot hfree
  rw [heq]
  refine ⟨rfl, rfl, rfl, ?_⟩
  show (newClient 7).last_tick ≠ 300
  decide

/-- Claim C1 (amended): for an address not present in the registry,
create_client initializes the fresh session with connected=true, music=-1,
both sequence counters 0, and `last_tick` equal to 0 (not the current
global tick); the ingress loop then sets `last_tick` to the current global
tick as soon as it accepts the triggering datagram (sequence ≥ 1). -/
theorem C1_amended {st : ServerState} {A : Nat} {i : Nat} {st₁ : ServerState}
    (h : Inv st) (hA : A ≠ 0) (hnot : A ∉ connectedAddrs st)
    (hc : create_client st A = (some i, st₁)) :
    st₁.clients.getD i zeroClient = newClient A ∧
      (newClient A).connected = true ∧ (newClient A).music = -1 ∧
      (newClient A).send_tick = 0 ∧ (newClient A).recv_tick = 0 ∧
      (newClient A).last_tick = 0 ∧
      ∀ data, ¬data.length < 5 → 1 ≤ read_uint32 data →
        ∀ c', findClient (receive_packet st A data) A = some c' →
          c'.last_tick = st.tick := by
  have hfree : numConnected st < NETWORK_CLIENTS := by
    rcases Nat.lt_or_ge (numConnected st) NETWORK_CLIENTS with hf | hge
    · exact hf
    · rw [create_client_full h hA hnot (le_antisymm (numConnected_le h) hge)] at hc
      cases hc
  obtain ⟨rest, hrest, heq⟩ := create_client_fresh h hA hnot hfree
  rw [heq] at hc
  cases hc
  refine ⟨rfl, rfl, rfl, rfl, rfl, rfl, ?_⟩
  intro data hlen hseq c' hfc'
  rw [receive_packet_connect h hA hnot hfree hlen hseq] at hfc'
  cases hfc'
  rfl

/-- Claim C1 witness: creating address 7 on the fresh server yields the
freshly initialized session record in slot 0. -/
theorem C1_witness :
    (create_client initState 7).2.clients.getD 0 zeroClient = newClient 7 := by
  obtain ⟨rest, hrest, heq⟩ := create_client_fresh inv_initState
    (show (7 : Nat) ≠ 0 by decide) (by rw [connectedAddrs_initState]; simp)
    (by rw [numConnected_initState]; norm_num [NETWORK_CLIENTS])
  have h := (C1_amended inv_initState (by decide)
    (by rw [connectedAddrs_initState]; simp) heq).1
  rw [heq]
  exact h

/-- Claim C2: any N ≤ C pairwise-distinct (valid, nonzero) addresses
obtain N simultaneously coexisting sessions; and when all C slots are
connected, find-or-create for a fresh distinct address returns NULL and
leaves the registry unchanged up to the internal re-sort (a permutation
of the same session records — nothing is evicted or modified). -/
theorem C2_registry_capacity (L : List Nat) (h1 : L.Nodup) (h2 : ∀ a ∈ L, a ≠ 0)
    (h3 : L.length ≤ NETWORK_CLIENTS) :
    (connectedAddrs (creates L)).Perm L ∧
      ∀ A, A ≠ 0 → A ∉ L → L.length = NETWORK_CLIENTS →
        (create_client (creates L) A).1 = none ∧
          (create_client (creates L) A).2.clients.Perm (creates L).clients := by
  simp only [creates]
  have hnum0 : numConnected initState = 0 := by
    rw [← length_connectedAddrs, connectedAddrs_initState]
    rfl
  have hbase := creates_go L initState inv_initState h1 h2
    (by rw [connectedAddrs_initState]; simp)
    (by rw [hnum0]; simpa using h3)
  obtain ⟨hinv, hperm⟩ := hbase
  have hperm' : (connectedAddrs (creates L)).Perm L := by
    have := hperm
    rw [connectedAddrs_initState, List.append_nil] at this
    exact this
  refine ⟨hperm', ?_⟩
  intro A hA0 hAL hfull
  have hnot : A ∉ connectedAddrs (creates L) := by
    intro hmem
    exact hAL (hperm'.mem_iff.mp hmem)
  have hnumfull : numConnected (creates L) = NETWORK_CLIENTS := by
    rw [← length_connectedAddrs, hperm'.length_eq, hfull]
  rw [create_client_full hinv hA0 hnot hnumfull]
  exact ⟨rfl, sortedView_perm (creates L)⟩

/-- Claim C2 witness: three distinct addresses 1, 2, 3 all coexist. -/
theorem C2_witness :
    ([1, 2, 3] : List Nat).Nodup ∧ (connectedAddrs (creates [1, 2, 3])).Perm [1, 2, 3] :=
  ⟨by decide, (C2_registry_capacity [1, 2, 3] (by decide) (by decide) (by decide)).1⟩

/-- Claim C3: at every reachable state at most one connected session
exists per address (count of matching slots ≤ 1), and calling
find-or-create twice with the same address returns the same session record
both times, the second call changing the registry only by a permutation. -/
theorem C3_find_or_create_idempotent {st : ServerState} (h : Reachable st)
    (A : Nat) (hA : A ≠ 0) :
    st.clients.countP (fun c => c.connected && c.addr == A) ≤ 1 ∧
      ∀ i st₁, create_client st A = (some i, st₁) →
        ∃ j st₂, create_client st₁ A = (some j, st₂) ∧
          st₂.clients.getD j zeroClient = st₁.clients.getD i zeroClient ∧
          st₂.clients.Perm st₁.clients := by
  have hinv := inv_of_reachable h
  refine ⟨countP_pA_le_one hinv.distinct, ?_⟩
  intro i st₁ hc
  obtain ⟨h₁, -, hilen, hconn, haddri⟩ := create_client_post hinv hA hc
  have hmem : st₁.clients.getD i zeroClient ∈ st₁.clients := by
    rw [List.getD_eq_getElem _ zeroClient hilen]
    exact List.getElem_mem hilen
  obtain ⟨j, hj, hjlen, hjval, -⟩ := create_client_found h₁ hA hmem hconn haddri
  exact ⟨j, _, hj, hjval, sortedView_perm st₁⟩

/-- Claim C3 witness. -/
theorem C3_witness :
    initState.clients.countP (fun c => c.connected && c.addr == 7) ≤ 1 :=
  (C3_find_or_create_idempotent Reachable.init 7 (by decide)).1

/-- Claim C4: a session's `recv_tick` never decreases across ingress
processing, and a datagram whose decoded sequence number is not strictly
greater than `recv_tick` leaves the session record (in particular `down`,
`pressed` and `last_tick`) completely unchanged. -/
theorem C4_recv_seq_monotone {st : ServerState} {A : Nat} {c : Client}
    (h : Inv st) (hA : A ≠ 0) (hc : findClient st A = some c) :
    (∀ addr data c', addr ≠ 0 →
        findClient (receive_packet st addr data) A = some c' →
        c.recv_tick ≤ c'.recv_tick) ∧
      (∀ data, read_uint32 data ≤ c.recv_tick →
        findClient (receive_packet st A data) A = some c) ∧
      ∀ c'', findClient (run_tick st).1 A = some c'' → c''.recv_tick = c.recv_tick := by
  refine ⟨?_, ?_, ?_⟩
  · intro addr data c' haddr hfc'
    by_cases hne : A = addr
    · subst hne
      by_cases hstale : data.length < 5 ∨ read_uint32 data ≤ c.recv_tick
      · rw [receive_packet_self_stale h hA hc hstale] at hfc'
        cases hfc'
        exact le_rfl
      · push_neg at hstale
        rw [receive_packet_self_fresh h hA hc (by omega) (by omega)] at hfc'
        cases hfc'
        have : c.recv_tick < read_uint32 data := by omega
        exact Nat.le_of_lt this
    · rw [receive_packet_other h haddr hne, hc] at hfc'
      cases hfc'
      exact le_rfl
  · intro data hstale
    exact receive_packet_self_stale h hA hc (Or.inr hstale)
  · intro c'' hfc''
    obtain ⟨hcm, hcc, hca⟩ := findClient_spec hfc''
    have hcm' : c'' ∈ st.clients.map (fun x => (tick_client (st.tick + 1) x).1) := hcm
    obtain ⟨c₀, hc₀, heq⟩ := List.mem_map.mp hcm'
    rw [← heq] at hcc hca ⊢
    obtain ⟨hc₀c, hc₀a, -, -, hrecv⟩ := tick_client_conn hcc
    rw [hrecv]
    have : c₀ = c := pA_unique h.distinct hc c₀ hc₀ hc₀c (by rw [← hc₀a, hca])
    rw [this]

/-- Claim C4 witness: a duplicate of the already-accepted sequence number 1
leaves the session record of address 7 unchanged. -/
theorem C4_witness :
    findClient (receive_packet exampleState 7 [0, 0, 0, 1, 0]) 7 = some exampleClient7 :=
  (C4_recv_seq_monotone inv_exampleState (by decide) findClient_exampleState).2.1
    [0, 0, 0, 1, 0] (by decide)

/-- Claim C5, counterexample to the claim as stated: after `handle_client`
transmits, the music selector and the tile-grid snapshot are NOT reset to
the none/empty defaults — a session with music=3 and an all-ones grid
still has them after dispatch. -/
theorem C5_counterexample :
    (handle_client { (newClient 7) with
       music := 3, audio := 5,
       video := List.replicate (VIDEO_ROWS * VIDEO_COLS) 1 }).1.music = 3 ∧
      (3 : Int) ≠ -1 ∧
      (handle_client { (newClient 7) with
       music := 3, audio := 5,
       video := List.replicate (VIDEO_ROWS * VIDEO_COLS) 1 }).1.video =
        List.replicate (VIDEO_ROWS * VIDEO_COLS) 1 ∧
      List.replicate (VIDEO_ROWS * VIDEO_COLS) (1 : Nat) ≠
        List.replicate (VIDEO_ROWS * VIDEO_COLS) 0 := by
  exact ⟨rfl, by decide, rfl, by decide⟩

/-- Claim C5 (amended): after the per-tick dispatch transmits the outbound
datagram, only the accumulated sound-effect flags (`audio`) and the
edge-triggered input (`pressed`) are reset to 0; the tile-grid snapshot
and the music selector persist unchanged into the next tick. -/
theorem C5_amended (c : Client) :
    (handle_client c).1.audio = 0 ∧ (handle_client c).1.pressed = 0 ∧
      (handle_client c).1.video = c.video ∧ (handle_client c).1.music = c.music ∧
      (handle_client c).1.down = c.down ∧
      (handle_client c).1.send_tick = (c.send_tick + 1) % 2 ^ 32 :=
  ⟨rfl, rfl, rfl, rfl, rfl, rfl⟩

/-- Claim C6: a connected session whose `last_tick` is older than
NETWORK_TIMEOUT relative to the tick of the upcoming dispatch pass is
destroyed during that pass, and no datagram is transmitted to its address
during that pass nor during any number of later ticks (absent ingress,
i.e. unless it reconnects). -/
theorem C6_timeout_eviction {st : ServerState} {A : Nat} {c : Client} (m : Nat)
    (h : Inv st) (hc : findClient st A = some c)
    (ht : NETWORK_TIMEOUT < st.tick + 1 - c.last_tick) :
    findClient (run_tick st).1 A = none ∧
      ∀ p ∈ (run_ticks st (m + 1)).2, p.1 ≠ A := by
  obtain ⟨hNoA, hpkts⟩ := run_tick_evict h hc ht
  refine ⟨findClient_none_of_NoA hNoA, ?_⟩
  intro p hp
  unfold run_ticks at hp
  simp only [] at hp
  rcases List.mem_append.mp hp with hp | hp
  · exact hpkts p hp
  · exact (run_ticks_NoA m (run_tick st).1 hNoA).2 p hp

/-- Claim C6 witness: address 7, last seen at tick 0, is evicted by the
dispatch pass at tick 301. -/
theorem C6_witness :
    findClient (run_tick (bump exampleState 300)).1 7 = none :=
  (C6_timeout_eviction 0
    (inv_tick_bump inv_exampleState (by rw [exampleState_tick]; norm_num))
    (by rw [findClient_bump]; exact findClient_exampleState)
    (by decide)).1

/-- Claim C7: accepting a fresh inbound datagram sets
`pressed = (~down) & buttons` (the released-to-held edges) and
`down = buttons`, and `pressed` is reset to 0 by the next dispatch pass
even if no further datagram arrives. -/
theorem C7_edge_detection {st : ServerState} {addr : Nat} {data : List Nat} {c : Client}
    (h : Inv st) (haddr : addr ≠ 0) (hc : findClient st addr = some c)
    (hlen : ¬data.length < 5) (hfresh : ¬read_uint32 data ≤ c.recv_tick) :
    findClient (receive_packet st addr data) addr =
      some { c with
             last_tick := st.tick, recv_tick := read_uint32 data,
             pressed := (255 ^^^ c.down) &&& data.getD 4 0,
             down := data.getD 4 0 } ∧
      ∀ c'', findClient (run_tick (receive_packet st addr data)).1 addr = some c'' →
        c''.pressed = 0 :=
  ⟨receive_packet_self_fresh h haddr hc hlen hfresh,
    fun _ hfc => run_tick_pressed_zero hfc⟩

/-- Claim C7 witness, the spec's own example: `down = 0b0011` and a new
datagram with buttons `0b0110` yields `pressed = 0b0100`. -/
theorem C7_witness :
    findClient (receive_packet exampleState 7 [0, 0, 0, 2, 6]) 7 =
      some { exampleClient7 with
             last_tick := 0, recv_tick := 2, pressed := 4, down := 6 } := by
  have h := (C7_edge_detection inv_exampleState (show (7:Nat) ≠ 0 by decide)
    findClient_exampleState
    (show ¬([0, 0, 0, 2, 6] : List Nat).length < 5 by decide)
    (show ¬read_uint32 [0, 0, 0, 2, 6] ≤ exampleClient7.recv_tick by decide)).1
  rw [exampleState_tick] at h
  rw [h]
  rfl

/-- Claim C8, counterexample to the claim as stated: `send_tick` is a
32-bit counter, so the transmitted sequence wraps from 2^32 - 1 back to 0
instead of increasing by exactly 1 forever. -/
theorem C8_counterexample :
    sentSeq (newClient 7) (2 ^ 32 - 2) = 2 ^ 32 - 1 ∧
      sentSeq (newClient 7) (2 ^ 32 - 1) = 0 ∧
      sentSeq (newClient 7) (2 ^ 32 - 1) ≠ sentSeq (newClient 7) (2 ^ 32 - 2) + 1 := by
  have h1 := sentSeq_newClient 7 (2 ^ 32 - 2)
  have h2 := sentSeq_newClient 7 (2 ^ 32 - 1)
  refine ⟨?_, ?_, ?_⟩
  · rw [h1]
    norm_num
  · rw [h2]
    norm_num
  · rw [h1, h2]
    norm_num

/-- Claim C8 (amended): the first outbound datagram of a fresh session
carries sequence number 1 (`send_tick` is incremented before encoding, so
0 is never sent), and the transmitted sequence increases by exactly 1 per
subsequent dispatch — modulo 2^32, i.e. exactly 1 until the 32-bit counter
wraps after 2^32 - 1 transmissions. -/
theorem C8_amended (A : Nat) :
    sentSeq (newClient A) 0 = 1 ∧
      (∀ k, sentSeq (newClient A) k = (k + 1) % 2 ^ 32) ∧
      ∀ k, k + 2 < 2 ^ 32 →
        sentSeq (newClient A) (k + 1) = sentSeq (newClient A) k + 1 := by
  have h32 : (2 : Nat) ^ 32 = 4294967296 := by norm_num
  refine ⟨?_, fun k => sentSeq_newClient A k, ?_⟩
  · rw [sentSeq_newClient]
    norm_num
  · intro k hk
    rw [sentSeq_newClient, sentSeq_newClient, h32] at *
    rw [Nat.mod_eq_of_lt (by omega), Nat.mod_eq_of_lt (by omega)]

/-- Claim C8 witness: the second datagram carries sequence 2. -/
theorem C8_witness :
    0 + 2 < 2 ^ 32 ∧ sentSeq (newClient 7) (0 + 1) = sentSeq (newClient 7) 0 + 1 :=
  ⟨by norm_num, (C8_amended 7).2.2 0 (by norm_num)⟩

/-- Claim C10: in every reachable state every unconnected slot is the
all-zero record, whose address 0 compares strictly below every connected
address; consequently, right after the array is sorted with
compare_clients, slot 0 is unconnected iff at least one free slot exists. -/
theorem C10_zero_slot_sorting {st : ServerState} (h : Reachable st) :
    (∀ c ∈ st.clients, c.connected = false → c = zeroClient) ∧
      (∀ c ∈ st.clients, c.connected = true → zeroClient.addr < c.addr) ∧
      (((sortClients st.clients).headD zeroClient).connected = false ↔
        ∃ c ∈ st.clients, c.connected = false) := by
  have hinv := inv_of_reachable h
  refine ⟨hinv.zero_slot, ?_, ?_, ?_⟩
  · intro c hc hcc
    have hne := hinv.conn_addr c hc hcc
    have h0 : zeroClient.addr = 0 := rfl
    rw [h0]
    omega
  · intro hhead
    have hlen : (sortClients st.clients).length = NETWORK_CLIENTS := by
      rw [(sortClients_perm st.clients).length_eq, hinv.len]
    match hcs : sortClients st.clients with
    | [] =>
      rw [hcs] at hlen
      simp [NETWORK_CLIENTS] at hlen
    | c0 :: rest =>
      rw [hcs] at hhead
      refine ⟨c0, ?_, by simpa using hhead⟩
      exact (sortClients_perm st.clients).mem_iff.mp (hcs ▸ (by simp : c0 ∈ c0 :: rest))
  · intro hex
    refine head_unconnected (sortClients_pairwise st.clients) ?_ ?_ ?_
    · exact fun c hc => hinv.zero_slot c ((sortClients_perm st.clients).mem_iff.mp hc)
    · exact fun c hc => hinv.conn_addr c ((sortClients_perm st.clients).mem_iff.mp hc)
    · obtain ⟨c, hc, hcc⟩ := hex
      exact ⟨c, (sortClients_perm st.clients).mem_iff.mpr hc, hcc⟩

/-- Claim C10 witness: on the fresh server the sorted slot 0 is free. -/
theorem C10_witness :
    ((sortClients initState.clients).headD zeroClient).connected = false :=
  ((C10_zero_slot_sorting Reachable.init).2.2).mpr
    ⟨zeroClient, List.mem_replicate.mpr ⟨by norm_num [NETWORK_CLIENTS], rfl⟩, rfl⟩

end TinyMMO
